import Mathlib

/-!
Shallow embedding of the furigana alignment engine of `generate_decks.py`
(class `FuriganaGenerator`).

Text is modelled as `List Char`.  The two pre-loaded external resources are
parameters of every definition that needs them:
* `tok : Char → List (List Char)` models the SudachiPy tokenizer: the reading
  forms (rendered in katakana) of the tokens obtained by tokenizing the given
  single-character string;
* `wdict : List Char → Option (List (List Char))` models the JMdict-derived
  dictionary `word_dict` (`none` when the key is absent).

Python sets are modelled as duplicate-free lists; CPython set iteration order
is a fixed deterministic function of the insertion history within one process
(the claims quantify over invocations against the same pre-loaded resources),
so insertion order is a faithful model of one engine run.  Wherever the
source sorts a candidate set (`sorted(list(candidates))`) the model sorts
with the same codepoint-lexicographic order Python uses on strings.

The memoization dictionary of `_align_segments` caches the values of a pure
function of the memo key, so it never changes the returned value; the
embedding uses the equivalent plain recursion.  The `print` of the warning
in `_annotate_word` is modelled as a `Bool` component of the result
(`true` iff the warning was emitted).  The dead branch guarded by
`hasattr(self, "exception_readings")` (the attribute is never created
anywhere in the repository) is omitted.  Floating-point cost arithmetic in
`_annotate_kanji_block` is modelled over `ℚ` (`1e-6` becomes `1/1000000`).
-/

namespace CoreDeck

/-- Readings (phonetic strings) are lists of characters. -/
abbrev Reading := List Char

/-- Voicing table `rendaku_map` of `_get_candidate_readings`; the table
`mapping` in `iteration_readings` is identical. -/
def rendaku_map (c : Char) : Option Char :=
  match c with
  | 'か' => some 'が' | 'き' => some 'ぎ' | 'く' => some 'ぐ' | 'け' => some 'げ' | 'こ' => some 'ご'
  | 'さ' => some 'ざ' | 'し' => some 'じ' | 'す' => some 'ず' | 'せ' => some 'ぜ' | 'そ' => some 'ぞ'
  | 'た' => some 'だ' | 'ち' => some 'ぢ' | 'つ' => some 'づ' | 'て' => some 'で' | 'と' => some 'ど'
  | 'は' => some 'ば' | 'ひ' => some 'び' | 'ふ' => some 'ぶ' | 'へ' => some 'べ' | 'ほ' => some 'ぼ'
  | _ => none

/-- Embeds `FuriganaGenerator.contains_kanji`: any character in
U+4E00..U+9FAF, or the iteration mark 々. -/
def contains_kanji (text : List Char) : Bool :=
  text.any (fun ch => (0x4e00 ≤ ch.toNat && ch.toNat ≤ 0x9faf) || ch = '々')

/-- Embeds `FuriganaGenerator._katakana_to_hiragana`: characters with
codepoint in 0x30A1..0x30F6 are shifted down by 0x60. -/
def katakana_to_hiragana (text : List Char) : List Char :=
  text.map (fun ch =>
    if 0x30A1 ≤ ch.toNat && ch.toNat ≤ 0x30F6 then Char.ofNat (ch.toNat - 0x60) else ch)

/-- Adds an element to a Python-set-as-list: no-op when already present. -/
def insertNew [DecidableEq α] (x : α) (l : List α) : List α :=
  if x ∈ l then l else l ++ [x]

/-- Embeds `FuriganaGenerator._get_candidate_readings`: union of the
tokenizer readings (katakana folded to hiragana, empty reading forms
skipped) and the dictionary readings for the character, closed under
first-kana rendaku voicing, with the character itself as fallback when
the union is empty. -/
def get_candidate_readings (tok : Char → List Reading)
    (wdict : Reading → Option (List Reading)) (kanji : Char) : List Reading :=
  let candidates := (tok kanji).foldl
    (fun acc r => if r.isEmpty then acc else insertNew (katakana_to_hiragana r) acc) []
  let candidates := match wdict [kanji] with
    | some rs => rs.foldl (fun acc r => insertNew r acc) candidates
    | none => candidates
  let additional := candidates.foldl (fun acc cand =>
    match cand with
    | [] => acc
    | c0 :: rest =>
      match rendaku_map c0 with
      | some v => insertNew (v :: rest) acc
      | none => acc) []
  let candidates := additional.foldl (fun acc r => insertNew r acc) candidates
  if candidates.isEmpty then [[kanji]] else candidates

/-- Embeds `FuriganaGenerator.iteration_readings`: the previous reading
itself plus, when its first kana has a voiced counterpart, the voiced
variant. -/
def iteration_readings (previous_reading : Reading) : List Reading :=
  match previous_reading with
  | [] => []
  | first :: rest =>
    match rendaku_map first with
    | some v => insertNew (v :: rest) [first :: rest]
    | none => [first :: rest]

/-- Codepoint-lexicographic order on strings, as Python `sorted` uses. -/
def strLe : List Char → List Char → Bool
  | [], _ => true
  | _ :: _, [] => false
  | a :: as, b :: bs => if a < b then true else if b < a then false else strLe as bs

/-- Insertion step of the sort used to model Python `sorted`. -/
def insertLex (x : Reading) : List Reading → List Reading
  | [] => [x]
  | y :: ys => if strLe x y then x :: y :: ys else y :: insertLex x ys

/-- Models Python `sorted` on a list of readings. -/
def sortLex : List Reading → List Reading
  | [] => []
  | x :: xs => insertLex x (sortLex xs)

/-- Models `cand = set(); for pc in prev_candidates: cand.update(iteration_readings(pc))`
in `_annotate_kanji_block`. -/
def iterationFold (prev_candidates : List Reading) : List Reading :=
  prev_candidates.foldl
    (fun cand pc => (iteration_readings pc).foldl (fun c r => insertNew r c) cand) []

/-- One step of the `candidates_list` construction of
`_annotate_kanji_block`: the candidate list for one character of the block,
given the candidate list already computed for the previous character
(`none` at index 0). -/
def candsFor (tok : Char → List Reading) (wdict : Reading → Option (List Reading))
    (blockLen : Nat) (block_reading : Reading)
    (prev : Option (List Reading)) (ch : Char) : List Reading :=
  if ch = '々' then
    match prev with
    | none => get_candidate_readings tok wdict ch
    | some pcs => iterationFold pcs
  else
    let s := get_candidate_readings tok wdict ch
    let s := if blockLen = 1 then insertNew block_reading s else s
    sortLex s

/-- Recursion building `candidates_list`, threading each character's
candidate list to its successor. -/
def candidates_list_aux (tok : Char → List Reading)
    (wdict : Reading → Option (List Reading)) (blockLen : Nat)
    (block_reading : Reading) :
    Option (List Reading) → List Char → List (List Reading)
  | _, [] => []
  | prev, ch :: rest =>
    let c := candsFor tok wdict blockLen block_reading prev ch
    c :: candidates_list_aux tok wdict blockLen block_reading (some c) rest

/-- The `candidates_list` variable of `_annotate_kanji_block`. -/
def candidates_list (tok : Char → List Reading)
    (wdict : Reading → Option (List Reading))
    (block : List Char) (block_reading : Reading) : List (List Reading) :=
  candidates_list_aux tok wdict block.length block_reading none block

/-- Cartesian product in the order `itertools.product` enumerates it
(rightmost coordinate varies fastest). -/
def listProd : List (List α) → List (List α)
  | [] => [[]]
  | l :: ls => l.flatMap (fun x => (listProd ls).map (fun combo => x :: combo))

/-- The `matching` variable of `_annotate_kanji_block`: combinations whose
concatenation equals the block reading, in product order. -/
def matchingCombos (tok : Char → List Reading)
    (wdict : Reading → Option (List Reading))
    (block : List Char) (block_reading : Reading) : List (List Reading) :=
  (listProd (candidates_list tok wdict block block_reading)).filter
    (fun combo => combo.flatten == block_reading)

/-- One annotated character: `<ruby>{ch}<rt>{r}</rt></ruby>` followed by
the spacer span. -/
def rubyChar (ch : Char) (r : Reading) : List Char :=
  "<ruby>".data ++ [ch] ++ "<rt>".data ++ r
    ++ "</rt></ruby><span class='kanji-space'></span>".data

/-- Renders a chosen combination or best split, one ruby element plus
spacer per character, as `_annotate_kanji_block` does. -/
def renderCombo (block : List Char) (chosen : List Reading) : List Char :=
  (List.zipWith rubyChar block chosen).flatten

/-- A single ruby annotation without spacer, as in the whole-block
fallback of `_annotate_kanji_block` and in `generate_furigana_word`. -/
def wrapRuby (b : List Char) (r : Reading) : List Char :=
  "<ruby>".data ++ b ++ "<rt>".data ++ r ++ "</rt></ruby>".data

/-- Embeds `FuriganaGenerator._generate_splits`: all ways to split the
reading into `n` non-empty contiguous parts, in the source's enumeration
order.  The source is never invoked with `n = 0` (kanji runs are
nonempty); the `0` case is an arbitrary total completion. -/
def generate_splits : Reading → Nat → List (List Reading)
  | _, 0 => []
  | reading, 1 => [[reading]]
  | reading, n + 2 =>
    (List.range' 1 (reading.length + 1 - (n + 2))).flatMap (fun i =>
      (generate_splits (reading.drop i) (n + 1)).map (fun rest => reading.take i :: rest))

/-- The `valid_splits` variable of `_annotate_kanji_block`: generated
splits each of whose parts is a candidate reading of the corresponding
character (candidates re-queried via `_get_candidate_readings`). -/
def valid_splits (tok : Char → List Reading)
    (wdict : Reading → Option (List Reading))
    (block : List Char) (block_reading : Reading) : List (List Reading) :=
  (generate_splits block_reading block.length).filter (fun split =>
    (block.zip split).all (fun p => decide (p.2 ∈ get_candidate_readings tok wdict p.1)))

/-- Cost of a split: sum over parts of `|len(part) - ideal|`. -/
def splitCost (ideal : ℚ) (split : List Reading) : ℚ :=
  (split.map (fun seg => |(seg.length : ℚ) - ideal|)).sum

/-- Python comparison `tuple(...) > tuple(...)` on tuples of naturals. -/
def tupleGt : List Nat → List Nat → Bool
  | _ :: _, [] => true
  | [], _ => false
  | a :: as, b :: bs => if b < a then true else if a < b then false else tupleGt as bs

/-- One iteration of the best-split selection loop of
`_annotate_kanji_block`: strict improvement needs a margin of `1e-6`;
within `1e-6` the split with the lexicographically greater tuple of part
lengths wins (an absent best is beaten by anything, as any finite cost is
below `float('inf') - 1e-6`). -/
def selectStep (ideal : ℚ) (best : Option (List Reading)) (split : List Reading) :
    Option (List Reading) :=
  match best with
  | none => some split
  | some b =>
    if splitCost ideal split < splitCost ideal b - 1 / 1000000 then some split
    else if |splitCost ideal split - splitCost ideal b| < 1 / 1000000 then
      if tupleGt (split.map List.length) (b.map List.length) then some split else some b
    else some b

/-- The best-split selection loop of `_annotate_kanji_block`. -/
def selectBestSplit (ideal : ℚ) (splits : List (List Reading)) : Option (List Reading) :=
  splits.foldl (selectStep ideal) none

/-- Embeds `FuriganaGenerator._annotate_kanji_block`: exact Cartesian
product match first, then the cost-scored partition fallback, then the
whole-block single annotation. -/
def annotate_kanji_block (tok : Char → List Reading)
    (wdict : Reading → Option (List Reading))
    (block : List Char) (block_reading : Reading) : List Char :=
  match matchingCombos tok wdict block block_reading with
  | chosen :: _ => renderCombo block chosen
  | [] =>
    let ideal : ℚ := (block_reading.length : ℚ) / (block.length : ℚ)
    match selectBestSplit ideal (valid_splits tok wdict block block_reading) with
    | some best_split => renderCombo block best_split
    | none => wrapRuby block block_reading

/-- Segment tags of `_split_surface`: literal runs and kanji runs. -/
inductive SegTag
  | L
  | K
  deriving DecidableEq, Repr

/-- Fueled recursion for `_split_surface`; the fuel only makes the
recursion structural and never runs out when it starts at the surface
length, since each emitted segment consumes at least one character. -/
def split_surface_aux : Nat → List Char → List (SegTag × List Char)
  | _, [] => []
  | 0, _ :: _ => []
  | fuel + 1, ch :: rest =>
    if contains_kanji [ch] then
      (SegTag.K, ch :: rest.takeWhile (fun c => contains_kanji [c])) ::
        split_surface_aux fuel (rest.dropWhile (fun c => contains_kanji [c]))
    else
      (SegTag.L, ch :: rest.takeWhile (fun c => !contains_kanji [c])) ::
        split_surface_aux fuel (rest.dropWhile (fun c => !contains_kanji [c]))

/-- Embeds `FuriganaGenerator._split_surface`: greedy maximal runs of a
single character class, classified by `contains_kanji` on the single
character. -/
def split_surface (surface : List Char) : List (SegTag × List Char) :=
  split_surface_aux surface.length surface

/-- Embeds `FuriganaGenerator._align_segments` (without the memo table,
which caches a pure function of the state key and cannot change the
value).  Literal segments require an exact script-normalized match of the
next `len(seg)` reading characters; kanji segments try slice lengths from
the whole remaining reading down to the run length. -/
def align_segments (tok : Char → List Reading)
    (wdict : Reading → Option (List Reading)) :
    List (SegTag × List Char) → Reading → Nat → Option (List Char)
  | [], reading, read_idx => if read_idx = reading.length then some [] else none
  | (SegTag.L, seg) :: rest, reading, read_idx =>
    let seg_norm := katakana_to_hiragana seg
    let literal_segment := (reading.drop read_idx).take seg.length
    if katakana_to_hiragana literal_segment = seg_norm then
      match align_segments tok wdict rest reading (read_idx + seg.length) with
      | some r => some (seg ++ r)
      | none => none
    else none
  | (SegTag.K, seg) :: rest, reading, read_idx =>
    let k := seg.length
    let lengths := (List.range' k (((reading.length : Int) - read_idx - k + 1).toNat)).reverse
    lengths.findSome? (fun L =>
      (align_segments tok wdict rest reading (read_idx + L)).map
        (fun r => annotate_kanji_block tok wdict seg ((reading.drop read_idx).take L) ++ r))

/-- Embeds `FuriganaGenerator._annotate_word`; the `Bool` is `true` iff
the no-alignment warning was printed. -/
def annotate_word (tok : Char → List Reading)
    (wdict : Reading → Option (List Reading))
    (surface : List Char) (full_reading : Reading) : List Char × Bool :=
  match align_segments tok wdict (split_surface surface) full_reading 0 with
  | none => (surface, true)
  | some result => (result, false)

/-- The no-target-reading branch of `generate_furigana_word`: wrap the
word when the dictionary knows exactly one reading, else pass it through. -/
def lookup_single (wdict : Reading → Option (List Reading))
    (word : List Char) : List Char × Bool :=
  match (wdict word).getD [] with
  | [r0] => (wrapRuby word r0, false)
  | _ => (word, false)

/-- Embeds `FuriganaGenerator.generate_furigana_word`; `target_reading`
is `none` for an absent reading, and the Python truthiness test
`if target_reading:` also sends the empty string to the dictionary
branch.  The `Bool` is `true` iff the alignment-failure warning was
printed. -/
def generate_furigana_word (tok : Char → List Reading)
    (wdict : Reading → Option (List Reading))
    (word : List Char) (target_reading : Option Reading) : List Char × Bool :=
  if !contains_kanji word then (word, false)
  else
    match target_reading with
    | some r =>
      if r.isEmpty then lookup_single wdict word
      else if '/' ∈ r then (word, false)
      else annotate_word tok wdict word r
    | none => lookup_single wdict word

/-! Concrete pre-loaded resources used by closed witness and
counterexample statements. -/

/-- A tokenizer yielding no tokens for any input. -/
def tokEmpty : Char → List Reading := fun _ => []

/-- An empty dictionary (every lookup misses). -/
def wdictEmpty : Reading → Option (List Reading) := fun _ => none

/-- A dictionary giving 火 the single reading か. -/
def wdictKa : Reading → Option (List Reading) :=
  fun w => if w = ['火'] then some ["か".data] else none

/-- A dictionary giving 人 the readings ひ and ひと, and the iteration
mark 々 (as its own key) the readings と and とと. -/
def wdictHito : Reading → Option (List Reading) :=
  fun w =>
    if w = ['人'] then some ["ひ".data, "ひと".data]
    else if w = ['々'] then some ["と".data, "とと".data]
    else none

/-- Statement form of claim C4: in a matching combination, the reading
at iteration-mark position `i` is the reading chosen at position `i - 1`
in the same combination, or that chosen reading with its first kana
voiced.  Stated from the claim's words in order to refute it. -/
def inheritsFromChosen (combo : List Reading) (i : Nat) : Prop :=
  combo.getD i [] = combo.getD (i - 1) [] ∨
    ∃ c0 rest v, combo.getD (i - 1) [] = c0 :: rest ∧ rendaku_map c0 = some v ∧
      combo.getD i [] = v :: rest

/-! Helper lemmas shared between claims. -/

theorem mem_insertNew [DecidableEq α] (x y : α) (l : List α) :
    y ∈ insertNew x l ↔ y = x ∨ y ∈ l := by
  unfold insertNew
  split
  · constructor
    · exact fun h => Or.inr h
    · rintro (rfl | h) <;> assumption
  · simp [or_comm]

theorem foldl_insertNew_mem [DecidableEq α] (l : List α) (acc : List α) (x : α) :
    x ∈ l.foldl (fun a r => insertNew r a) acc ↔ x ∈ acc ∨ x ∈ l := by
  induction l generalizing acc with
  | nil => simp
  | cons r rs ih =>
    simp only [List.foldl_cons, ih, mem_insertNew, List.mem_cons]
    tauto

theorem foldl_skip_empty (l : List Reading) (acc : List Reading)
    (h : ∀ r ∈ l, r = []) :
    l.foldl (fun a r => if r.isEmpty then a else insertNew (katakana_to_hiragana r) a) acc
      = acc := by
  induction l generalizing acc with
  | nil => rfl
  | cons r rs ih =>
    have hr : r = [] := h r (List.mem_cons_self r rs)
    subst hr
    simpa using ih acc (fun r hm => h r (List.mem_cons_of_mem _ hm))

theorem foldl_preserve {α β : Type} {p : β → Prop} (step : β → α → β)
    (h : ∀ b a, p b → p (step b a)) :
    ∀ (l : List α) (b : β), p b → p (l.foldl step b) := by
  intro l
  induction l with
  | nil => exact fun b hb => hb
  | cons a l ih => exact fun b hb => ih (step b a) (h b a hb)

theorem insertNew_nodup [DecidableEq α] (x : α) (l : List α) (h : l.Nodup) :
    (insertNew x l).Nodup := by
  unfold insertNew
  split
  · exact h
  · next hx => simpa [List.nodup_append, hx] using h

theorem get_candidate_readings_nodup (tok : Char → List Reading)
    (wdict : Reading → Option (List Reading)) (c : Char) :
    (get_candidate_readings tok wdict c).Nodup := by
  unfold get_candidate_readings
  have h1 : (List.foldl
      (fun acc r => if r.isEmpty then acc else insertNew (katakana_to_hiragana r) acc)
      [] (tok c)).Nodup := by
    refine foldl_preserve _ ?_ _ _ List.nodup_nil
    intro b a hb
    dsimp only
    split
    · exact hb
    · exact insertNew_nodup _ _ hb
  have h2 : ∀ (rs : List Reading) (acc : List Reading), acc.Nodup →
      (rs.foldl (fun a r => insertNew r a) acc).Nodup := by
    intro rs acc hacc
    exact foldl_preserve _ (fun b a hb => insertNew_nodup _ _ hb) _ _ hacc
  have hfin : ∀ l : List Reading, l.Nodup → (if l.isEmpty = true then [[c]] else l).Nodup := by
    intro l hl
    split
    · exact List.nodup_singleton _
    · exact hl
  split
  · exact hfin _ (h2 _ _ (h2 _ _ h1))
  · exact hfin _ (h2 _ _ h1)

theorem mem_insertLex (x y : Reading) (l : List Reading) :
    y ∈ insertLex x l ↔ y = x ∨ y ∈ l := by
  induction l with
  | nil => simp [insertLex]
  | cons a l ih =>
    rw [insertLex]
    split
    · simp
    · simp only [List.mem_cons, ih]
      tauto

theorem insertLex_nodup (x : Reading) (l : List Reading) (h : l.Nodup) (hx : x ∉ l) :
    (insertLex x l).Nodup := by
  induction l with
  | nil => simp [insertLex]
  | cons a l ih =>
    rw [insertLex]
    rw [List.nodup_cons] at h
    split
    · rw [List.nodup_cons, List.nodup_cons]
      refine ⟨?_, h⟩
      intro hmem
      exact hx hmem
    · rw [List.nodup_cons]
      constructor
      · rw [mem_insertLex]
        rintro (rfl | hmem)
        · exact hx (List.mem_cons_self _ _)
        · exact h.1 hmem
      · exact ih h.2 (fun hm => hx (List.mem_cons_of_mem _ hm))

theorem mem_sortLex (y : Reading) (l : List Reading) : y ∈ sortLex l ↔ y ∈ l := by
  induction l with
  | nil => simp [sortLex]
  | cons a l ih =>
    rw [sortLex, mem_insertLex, ih]
    simp

theorem sortLex_nodup (l : List Reading) (h : l.Nodup) : (sortLex l).Nodup := by
  induction l with
  | nil => simp [sortLex]
  | cons a l ih =>
    rw [List.nodup_cons] at h
    rw [sortLex]
    refine insertLex_nodup _ _ (ih h.2) ?_
    rw [mem_sortLex]
    exact h.1

theorem filter_beq_of_nodup (l : List Reading) (r : Reading) (hn : l.Nodup)
    (hr : r ∈ l) : l.filter (fun x => x == r) = [r] := by
  induction l with
  | nil => simp at hr
  | cons a l ih =>
    rw [List.nodup_cons] at hn
    rcases List.mem_cons.mp hr with rfl | hmem
    · have hnil : l.filter (fun x => x == r) = [] := by
        rw [List.filter_eq_nil_iff]
        intro x hx
        simp only [beq_iff_eq]
        rintro rfl
        exact hn.1 hx
      simp [List.filter_cons, hnil]
    · have hne : (a == r) = false := by
        simp only [beq_eq_false_iff_ne, ne_eq]
        rintro rfl
        exact hn.1 hmem
      rw [List.filter_cons, if_neg (by simp [hne])]
      exact ih hn.2 hmem

theorem flatMap_single {α β : Type} (l : List α) (f : α → β) :
    l.flatMap (fun x => [f x]) = l.map f := by
  induction l with
  | nil => rfl
  | cons a l ih => simp [List.flatMap_cons, ih]

theorem listProd_singleton (l : List Reading) :
    listProd [l] = l.map (fun x => [x]) := by
  have h : listProd [l] = l.flatMap (fun x => [[x]]) := by
    rw [listProd, listProd]
    simp
  rw [h, flatMap_single]

theorem map_single_filter_flatten (r : Reading) :
    ∀ S : List Reading, S.Nodup → r ∈ S →
      (S.map (fun x => [x])).filter (fun combo => combo.flatten == r) = [[r]] := by
  intro S
  induction S with
  | nil => intro _ hr; simp at hr
  | cons a S ih =>
    intro hn hr
    rw [List.nodup_cons] at hn
    rw [List.map_cons, List.filter_cons]
    rcases List.mem_cons.mp hr with rfl | hmem
    · rw [if_pos (by simp)]
      have hnil : (S.map (fun x => [x])).filter (fun combo => combo.flatten == r) = [] := by
        rw [List.filter_eq_nil_iff]
        intro combo hcombo
        obtain ⟨x, hx, rfl⟩ := List.mem_map.mp hcombo
        simp only [List.flatten_cons, List.flatten_nil, List.append_nil, beq_iff_eq]
        rintro rfl
        exact hn.1 hx
      rw [hnil]
    · have hne : a ≠ r := by
        rintro rfl
        exact hn.1 hmem
      rw [if_neg (by simpa using hne)]
      exact ih hn.2 hmem

theorem mem_listProd {ls : List (List Reading)} {combo : List Reading} :
    combo ∈ listProd ls ↔ List.Forall₂ (fun x l => x ∈ l) combo ls := by
  induction ls generalizing combo with
  | nil =>
    simp only [listProd, List.mem_singleton]
    constructor
    · rintro rfl
      exact List.Forall₂.nil
    · intro h
      cases h
      rfl
  | cons l ls ih =>
    simp only [listProd, List.mem_flatMap, List.mem_map]
    constructor
    · rintro ⟨x, hx, c', hc', rfl⟩
      exact List.Forall₂.cons hx (ih.mp hc')
    · intro h
      cases h with
      | cons hx hrest => exact ⟨_, hx, _, ih.mpr hrest, rfl⟩

theorem forall₂_getD {α β : Type} {R : α → β → Prop} (d : α) (d' : β) :
    ∀ {as : List α} {bs : List β}, List.Forall₂ R as bs →
      ∀ i, i < bs.length → R (as.getD i d) (bs.getD i d') := by
  intro as bs h
  induction h with
  | nil => intro i hi; simp at hi
  | cons hR hrest ih =>
    intro i hi
    cases i with
    | zero => simpa using hR
    | succ j =>
      simp only [List.getD_cons_succ]
      exact ih j (Nat.lt_of_succ_lt_succ hi)

theorem candidates_list_aux_length (tok : Char → List Reading)
    (wdict : Reading → Option (List Reading)) (blockLen : Nat) (br : Reading) :
    ∀ (block : List Char) (prev : Option (List Reading)),
      (candidates_list_aux tok wdict blockLen br prev block).length = block.length := by
  intro block
  induction block with
  | nil => intro prev; rfl
  | cons ch rest ih =>
    intro prev
    rw [candidates_list_aux]
    simp [ih]

theorem candidates_list_aux_iter (tok : Char → List Reading)
    (wdict : Reading → Option (List Reading)) (blockLen : Nat) (br : Reading) :
    ∀ (block : List Char) (prev : Option (List Reading)) (i : Nat),
      0 < i → i < block.length → block.getD i ' ' = '々' →
      (candidates_list_aux tok wdict blockLen br prev block).getD i []
        = iterationFold
            ((candidates_list_aux tok wdict blockLen br prev block).getD (i - 1) []) := by
  intro block
  induction block with
  | nil =>
    intro prev i _ hi
    simp at hi
  | cons ch rest ih =>
    intro prev i hpos hi hch
    rw [candidates_list_aux]
    cases i with
    | zero => exact absurd hpos (by simp)
    | succ j =>
      simp only [List.getD_cons_succ]
      cases j with
      | zero =>
        cases rest with
        | nil => simp at hi
        | cons ch2 rest2 =>
          have hch2 : ch2 = '々' := by simpa using hch
          subst hch2
          rw [candidates_list_aux]
          simp [candsFor]
      | succ j' =>
        have hch' : rest.getD (j' + 1) ' ' = '々' := by simpa using hch
        have hlt : j' + 1 < rest.length := by
          simpa [Nat.succ_lt_succ_iff] using hi
        have := ih (some (candsFor tok wdict blockLen br prev ch)) (j' + 1)
          (Nat.succ_pos _) hlt hch'
        simpa using this

theorem mem_iterationFold (x : Reading) (pcs : List Reading) :
    x ∈ iterationFold pcs ↔ ∃ pc ∈ pcs, x ∈ iteration_readings pc := by
  have gen : ∀ (l : List Reading) (acc : List Reading),
      x ∈ l.foldl (fun cand pc => (iteration_readings pc).foldl (fun c r => insertNew r c) cand) acc
        ↔ x ∈ acc ∨ ∃ pc ∈ l, x ∈ iteration_readings pc := by
    intro l
    induction l with
    | nil => simp
    | cons pc l ih =>
      intro acc
      rw [List.foldl_cons, ih, foldl_insertNew_mem]
      simp only [List.mem_cons]
      constructor
      · rintro ((h | h) | ⟨pc', hpc', hx⟩)
        · exact Or.inl h
        · exact Or.inr ⟨pc, Or.inl rfl, h⟩
        · exact Or.inr ⟨pc', Or.inr hpc', hx⟩
      · rintro (h | ⟨pc', (rfl | hpc'), hx⟩)
        · exact Or.inl (Or.inl h)
        · exact Or.inl (Or.inr hx)
        · exact Or.inr ⟨pc', hpc', hx⟩
  rw [iterationFold, gen]
  simp

theorem dropWhile_head_false (p : α → Bool) :
    ∀ (l : List α) (c : α) (cs : List α), l.dropWhile p = c :: cs → p c = false := by
  intro l
  induction l with
  | nil => intro c cs h; simp [List.dropWhile] at h
  | cons a l ih =>
    intro c cs h
    rw [List.dropWhile_cons] at h
    by_cases hp : p a
    · rw [if_pos hp] at h
      exact ih c cs h
    · rw [if_neg hp] at h
      obtain ⟨rfl, -⟩ := List.cons.inj h
      exact Bool.of_not_eq_true hp

theorem split_surface_aux_spec (fuel : Nat) :
    ∀ l : List Char, l.length ≤ fuel →
      ((split_surface_aux fuel l).map Prod.snd).flatten = l ∧
      (∀ s ∈ split_surface_aux fuel l, s.2 ≠ []) ∧
      List.Chain' (fun a b => a.1 ≠ b.1) (split_surface_aux fuel l) := by
  induction fuel with
  | zero =>
    intro l hl
    rw [List.length_eq_zero.mp (Nat.le_zero.mp hl)]
    simp [split_surface_aux]
  | succ f ih =>
    intro l hl
    cases l with
    | nil => simp [split_surface_aux]
    | cons ch rest =>
      have hrest : rest.length ≤ f := Nat.le_of_succ_le_succ hl
      rw [split_surface_aux]
      by_cases hk : contains_kanji [ch]
      · rw [if_pos hk]
        have hdl : (rest.dropWhile (fun c => contains_kanji [c])).length ≤ f :=
          le_trans (List.dropWhile_sublist _).length_le hrest
        obtain ⟨ihj, ihne, ihch⟩ := ih _ hdl
        refine ⟨?_, ?_, ?_⟩
        · simp only [List.map_cons, List.flatten_cons, ihj]
          rw [List.cons_append, List.takeWhile_append_dropWhile]
        · intro s hs
          rcases List.mem_cons.mp hs with rfl | hs
          · simp
          · exact ihne s hs
        · rw [List.chain'_cons']
          refine ⟨?_, ihch⟩
          intro b hb
          cases hdw : rest.dropWhile (fun c => contains_kanji [c]) with
          | nil => rw [hdw] at hb; simp [split_surface_aux] at hb
          | cons c cs =>
            rw [hdw] at hb
            have hc : contains_kanji [c] = false := dropWhile_head_false _ rest c cs hdw
            cases f with
            | zero =>
              exfalso
              rw [hdw] at hdl
              simp at hdl
            | succ f' =>
              rw [split_surface_aux, if_neg (by simp [hc])] at hb
              simp only [List.head?_cons, Option.mem_def, Option.some.injEq] at hb
              subst hb
              simp
      · rw [if_neg hk]
        have hdl : (rest.dropWhile (fun c => !contains_kanji [c])).length ≤ f :=
          le_trans (List.dropWhile_sublist _).length_le hrest
        obtain ⟨ihj, ihne, ihch⟩ := ih _ hdl
        refine ⟨?_, ?_, ?_⟩
        · simp only [List.map_cons, List.flatten_cons, ihj]
          rw [List.cons_append, List.takeWhile_append_dropWhile]
        · intro s hs
          rcases List.mem_cons.mp hs with rfl | hs
          · simp
          · exact ihne s hs
        · rw [List.chain'_cons']
          refine ⟨?_, ihch⟩
          intro b hb
          cases hdw : rest.dropWhile (fun c => !contains_kanji [c]) with
          | nil => rw [hdw] at hb; simp [split_surface_aux] at hb
          | cons c cs =>
            rw [hdw] at hb
            have hc : contains_kanji [c] = true := by
              have := dropWhile_head_false _ rest c cs hdw
              simpa using this
            cases f with
            | zero =>
              exfalso
              rw [hdw] at hdl
              simp at hdl
            | succ f' =>
              rw [split_surface_aux, if_pos hc] at hb
              simp only [List.head?_cons, Option.mem_def, Option.some.injEq] at hb
              subst hb
              simp

theorem tupleGt_irrefl : ∀ l : List Nat, tupleGt l l = false := by
  intro l
  induction l with
  | nil => rfl
  | cons a l ih =>
    rw [tupleGt]
    simp [Nat.lt_irrefl, ih]

theorem tupleGt_trans :
    ∀ a b c : List Nat, tupleGt a b = true → tupleGt b c = true → tupleGt a c = true := by
  intro a
  induction a with
  | nil =>
    intro b c hab
    simp [tupleGt] at hab
  | cons x as ih =>
    intro b c hab hbc
    cases b with
    | nil => simp [tupleGt] at hbc
    | cons y bs =>
      cases c with
      | nil => rw [tupleGt]
      | cons z cs =>
        rw [tupleGt] at hab hbc ⊢
        rcases Nat.lt_trichotomy y x with h1 | h1 | h1
        · rcases Nat.lt_trichotomy z y with h2 | h2 | h2
          · rw [if_pos (by omega : z < x)]
          · rw [if_pos (by omega : z < x)]
          · rw [if_neg (by omega), if_pos h2] at hbc
            simp at hbc
        · subst h1
          rw [if_neg (by omega), if_neg (by omega)] at hab
          rcases Nat.lt_trichotomy z y with h2 | h2 | h2
          · rw [if_pos h2]
          · subst h2
            rw [if_neg (by omega), if_neg (by omega)] at hbc ⊢
            exact ih bs cs hab hbc
          · rw [if_neg (by omega), if_pos h2] at hbc
            simp at hbc
        · rw [if_neg (by omega), if_pos h1] at hab
          simp at hab

theorem tupleGt_conn :
    ∀ a b : List Nat, tupleGt a b = false → tupleGt b a = false → a = b := by
  intro a
  induction a with
  | nil =>
    intro b h1 h2
    cases b with
    | nil => rfl
    | cons y bs => simp [tupleGt] at h2
  | cons x as ih =>
    intro b h1 h2
    cases b with
    | nil => simp [tupleGt] at h1
    | cons y bs =>
      rw [tupleGt] at h1 h2
      rcases Nat.lt_trichotomy x y with h | h | h
      · rw [if_pos h] at h2
        simp at h2
      · subst h
        rw [if_neg (by omega), if_neg (by omega)] at h1 h2
        rw [ih bs h1 h2]
      · rw [if_pos h] at h1
        simp at h1

theorem splitCost_nil (ideal : ℚ) : splitCost ideal [] = 0 := rfl

theorem splitCost_cons (ideal : ℚ) (seg : Reading) (s : List Reading) :
    splitCost ideal (seg :: s) = |(seg.length : ℚ) - ideal| + splitCost ideal s := by
  rw [splitCost, splitCost, List.map_cons, List.sum_cons]

/-- Every split cost against the ideal `p / q` is a natural multiple of
`1 / q` — the key fact making the `1e-6` margin exact for runs shorter
than one million characters. -/
theorem cost_int (p q : ℕ) (hq : 0 < q) :
    ∀ s : List Reading, ∃ N : ℕ, splitCost ((p : ℚ) / (q : ℚ)) s * (q : ℚ) = (N : ℚ) := by
  intro s
  induction s with
  | nil => exact ⟨0, by simp [splitCost_nil]⟩
  | cons seg s ih =>
    obtain ⟨N, hN⟩ := ih
    have hq' : (0 : ℚ) < (q : ℚ) := by exact_mod_cast hq
    refine ⟨((seg.length * q : ℤ) - p).natAbs + N, ?_⟩
    rw [splitCost_cons, add_mul, hN]
    have habs : |(seg.length : ℚ) - (p : ℚ) / (q : ℚ)| * (q : ℚ)
        = ((((seg.length * q : ℤ) - p).natAbs : ℕ) : ℚ) := by
      have h1 : |(seg.length : ℚ) - (p : ℚ) / (q : ℚ)| * (q : ℚ)
          = |((seg.length : ℚ) - (p : ℚ) / (q : ℚ)) * (q : ℚ)| := by
        rw [abs_mul, abs_of_nonneg hq'.le]
      have h2 : ((seg.length : ℚ) - (p : ℚ) / (q : ℚ)) * (q : ℚ)
          = (((seg.length * q : ℤ) - p : ℤ) : ℚ) := by
        push_cast
        field_simp
      rw [h1, h2, Int.cast_natAbs]
      exact Int.cast_abs.symm
    rw [habs]
    push_cast
    ring

theorem div_lt_sub_eps_iff (Ns Nt q : ℕ) (hq : 0 < q) (hq6 : q < 1000000) :
    ((Ns : ℚ) / q < (Nt : ℚ) / q - 1 / 1000000) ↔ Ns < Nt := by
  have hq' : (0 : ℚ) < (q : ℚ) := by exact_mod_cast hq
  have hq6' : (q : ℚ) < 1000000 := by exact_mod_cast hq6
  constructor
  · intro h
    have hlt : (Ns : ℚ) / q < (Nt : ℚ) / q := by
      have heps : (0 : ℚ) < 1 / 1000000 := by norm_num
      linarith
    by_contra hle
    push_neg at hle
    have : (Nt : ℚ) / q ≤ (Ns : ℚ) / q := by
      gcongr
    linarith
  · intro h
    have h1 : (Ns : ℚ) + 1 ≤ (Nt : ℚ) := by exact_mod_cast h
    have hgap : (Ns : ℚ) / q + 1 / q ≤ (Nt : ℚ) / q := by
      rw [div_add_div_same]
      gcongr
    have heps : (1 : ℚ) / 1000000 < 1 / q := by
      rw [div_lt_div_iff₀ (by norm_num) hq']
      linarith
    linarith

theorem div_abs_lt_eps_iff (Ns Nt q : ℕ) (hq : 0 < q) (hq6 : q < 1000000) :
    (|(Ns : ℚ) / q - (Nt : ℚ) / q| < 1 / 1000000) ↔ Ns = Nt := by
  have hq' : (0 : ℚ) < (q : ℚ) := by exact_mod_cast hq
  have hq6' : (q : ℚ) < 1000000 := by exact_mod_cast hq6
  have heps : (1 : ℚ) / 1000000 < 1 / q := by
    rw [div_lt_div_iff₀ (by norm_num) hq']
    linarith
  constructor
  · intro h
    by_contra hne
    rcases Nat.lt_or_ge Ns Nt with hlt | hge
    · have h1 : (Ns : ℚ) + 1 ≤ (Nt : ℚ) := by exact_mod_cast hlt
      have hgap : (Ns : ℚ) / q + 1 / q ≤ (Nt : ℚ) / q := by
        rw [div_add_div_same]
        gcongr
      have habs : |(Ns : ℚ) / q - (Nt : ℚ) / q| = (Nt : ℚ) / q - (Ns : ℚ) / q := by
        rw [abs_sub_comm, abs_of_nonneg (by linarith)]
      linarith
    · have hlt2 : Nt < Ns := lt_of_le_of_ne hge fun h' => hne h'.symm
      have h1 : (Nt : ℚ) + 1 ≤ (Ns : ℚ) := by exact_mod_cast hlt2
      have hgap : (Nt : ℚ) / q + 1 / q ≤ (Ns : ℚ) / q := by
        rw [div_add_div_same]
        gcongr
      have habs : |(Ns : ℚ) / q - (Nt : ℚ) / q| = (Ns : ℚ) / q - (Nt : ℚ) / q := by
        rw [abs_of_nonneg (by linarith)]
      linarith
  · rintro rfl
    simp only [sub_self, abs_zero]
    norm_num

theorem cost_eq_div (p q : ℕ) (hq : 0 < q) (s : List Reading) :
    ∃ N : ℕ, splitCost ((p : ℚ) / (q : ℚ)) s = (N : ℚ) / q := by
  obtain ⟨N, hN⟩ := cost_int p q hq s
  have hq' : ((q : ℚ)) ≠ 0 := by
    have : (0 : ℚ) < (q : ℚ) := by exact_mod_cast hq
    exact ne_of_gt this
  exact ⟨N, (eq_div_iff hq').mpr hN⟩

/-- The selection loop started at `some b` returns an element of
`b :: splits` of minimal cost, whose length tuple is not exceeded by the
length tuple of any other element of equal cost — provided the run is
shorter than one million characters, so that the `1e-6` margin lies
strictly below the cost granularity `1 / q`. -/
theorem selectFold_spec (p q : ℕ) (hq : 0 < q) (hq6 : q < 1000000) :
    ∀ (splits : List (List Reading)) (b : List Reading),
      ∃ c, List.foldl (selectStep ((p : ℚ) / (q : ℚ))) (some b) splits = some c ∧
        c ∈ b :: splits ∧
        ∀ s ∈ b :: splits,
          splitCost ((p : ℚ) / (q : ℚ)) c ≤ splitCost ((p : ℚ) / (q : ℚ)) s ∧
          (splitCost ((p : ℚ) / (q : ℚ)) c = splitCost ((p : ℚ) / (q : ℚ)) s →
            tupleGt (s.map List.length) (c.map List.length) = false) := by
  intro splits
  induction splits with
  | nil =>
    intro b
    refine ⟨b, rfl, List.mem_cons_self _ _, ?_⟩
    intro s hs
    rcases List.mem_cons.mp hs with rfl | hs
    · exact ⟨le_refl _, fun _ => tupleGt_irrefl _⟩
    · simp at hs
  | cons s' rest ih =>
    intro b
    obtain ⟨Nb, hNb⟩ := cost_eq_div p q hq b
    obtain ⟨Ns', hNs'⟩ := cost_eq_div p q hq s'
    rw [List.foldl_cons]
    have hstep : selectStep ((p : ℚ) / (q : ℚ)) (some b) s'
        = if splitCost ((p : ℚ) / (q : ℚ)) s'
              < splitCost ((p : ℚ) / (q : ℚ)) b - 1 / 1000000 then some s'
          else if |splitCost ((p : ℚ) / (q : ℚ)) s'
              - splitCost ((p : ℚ) / (q : ℚ)) b| < 1 / 1000000 then
            if tupleGt (s'.map List.length) (b.map List.length) then some s' else some b
          else some b := rfl
    rw [hstep]
    by_cases h1 : splitCost ((p : ℚ) / (q : ℚ)) s'
        < splitCost ((p : ℚ) / (q : ℚ)) b - 1 / 1000000
    · rw [if_pos h1]
      have hn : Ns' < Nb := (div_lt_sub_eps_iff Ns' Nb q hq hq6).mp
        (by rwa [hNs', hNb] at h1)
      have hlt : splitCost ((p : ℚ) / (q : ℚ)) s' < splitCost ((p : ℚ) / (q : ℚ)) b := by
        rw [hNs', hNb]
        gcongr
      obtain ⟨c, hc, hcmem, hcall⟩ := ih s'
      refine ⟨c, hc, ?_, ?_⟩
      · exact List.mem_cons_of_mem _ hcmem
      · intro s hs
        rcases List.mem_cons.mp hs with rfl | hs
        · have hcs' := (hcall s' (List.mem_cons_self _ _)).1
          refine ⟨le_of_lt (lt_of_le_of_lt hcs' hlt), ?_⟩
          intro heq
          exact absurd heq (ne_of_lt (lt_of_le_of_lt hcs' hlt))
        · exact hcall s hs
    · rw [if_neg h1]
      by_cases h2 : |splitCost ((p : ℚ) / (q : ℚ)) s'
          - splitCost ((p : ℚ) / (q : ℚ)) b| < 1 / 1000000
      · rw [if_pos h2]
        have hn : Ns' = Nb := (div_abs_lt_eps_iff Ns' Nb q hq hq6).mp
          (by rwa [hNs', hNb] at h2)
        have heq : splitCost ((p : ℚ) / (q : ℚ)) s' = splitCost ((p : ℚ) / (q : ℚ)) b := by
          rw [hNs', hNb, hn]
        by_cases h3 : tupleGt (s'.map List.length) (b.map List.length) = true
        · rw [if_pos h3]
          obtain ⟨c, hc, hcmem, hcall⟩ := ih s'
          refine ⟨c, hc, List.mem_cons_of_mem _ hcmem, ?_⟩
          intro s hs
          rcases List.mem_cons.mp hs with rfl | hs
          · have h41 := (hcall s' (List.mem_cons_self _ _)).1
            refine ⟨by rw [← heq]; exact h41, ?_⟩
            intro h5
            by_contra habs
            have hb : tupleGt (s.map List.length) (c.map List.length) = true := by
              cases hx : tupleGt (s.map List.length) (c.map List.length) with
              | false => exact absurd hx habs
              | true => rfl
            have h42 := (hcall s' (List.mem_cons_self _ _)).2 (h5.trans heq.symm)
            have htrans := tupleGt_trans _ _ _ h3 hb
            rw [h42] at htrans
            simp at htrans
          · exact hcall s hs
        · rw [if_neg h3]
          have h3' : tupleGt (s'.map List.length) (b.map List.length) = false := by
            cases hx : tupleGt (s'.map List.length) (b.map List.length) with
            | false => rfl
            | true => exact absurd hx h3
          obtain ⟨c, hc, hcmem, hcall⟩ := ih b
          refine ⟨c, hc, ?_, ?_⟩
          · rcases List.mem_cons.mp hcmem with rfl | h
            · exact List.mem_cons_self _ _
            · exact List.mem_cons_of_mem _ (List.mem_cons_of_mem _ h)
          · intro s hs
            rcases List.mem_cons.mp hs with rfl | hs
            · exact hcall s (List.mem_cons_self _ _)
            rcases List.mem_cons.mp hs with rfl | hs
            · have h41 := (hcall b (List.mem_cons_self _ _)).1
              refine ⟨by rw [heq]; exact h41, ?_⟩
              intro h5
              have hbc := (hcall b (List.mem_cons_self _ _)).2 (h5.trans heq)
              by_contra habs
              have hsc : tupleGt (s.map List.length) (c.map List.length) = true := by
                cases hx : tupleGt (s.map List.length) (c.map List.length) with
                | false => exact absurd hx habs
                | true => rfl
              cases hbs : tupleGt (b.map List.length) (s.map List.length) with
              | false =>
                have hmapeq := tupleGt_conn _ _ h3' hbs
                rw [hmapeq] at hsc
                rw [hbc] at hsc
                simp at hsc
              | true =>
                have htrans := tupleGt_trans _ _ _ hbs hsc
                rw [hbc] at htrans
                simp at htrans
            · exact hcall s (List.mem_cons_of_mem _ hs)
      · rw [if_neg h2]
        have hneq : ¬ Ns' = Nb := by
          intro h
          apply h2
          rw [hNs', hNb, h, sub_self, abs_zero]
          norm_num
        have hnotlt : ¬ Ns' < Nb := by
          intro h
          apply h1
          rw [hNs', hNb]
          exact (div_lt_sub_eps_iff Ns' Nb q hq hq6).mpr h
        have hblt : Nb < Ns' := by omega
        have hlt : splitCost ((p : ℚ) / (q : ℚ)) b < splitCost ((p : ℚ) / (q : ℚ)) s' := by
          rw [hNs', hNb]
          gcongr
        obtain ⟨c, hc, hcmem, hcall⟩ := ih b
        refine ⟨c, hc, ?_, ?_⟩
        · rcases List.mem_cons.mp hcmem with rfl | h
          · exact List.mem_cons_self _ _
          · exact List.mem_cons_of_mem _ (List.mem_cons_of_mem _ h)
        · intro s hs
          rcases List.mem_cons.mp hs with rfl | hs
          · exact hcall s (List.mem_cons_self _ _)
          rcases List.mem_cons.mp hs with rfl | hs
          · have h41 := (hcall b (List.mem_cons_self _ _)).1
            refine ⟨le_of_lt (lt_of_le_of_lt h41 hlt), ?_⟩
            intro h5
            exact absurd h5 (ne_of_lt (lt_of_le_of_lt h41 hlt))
          · exact hcall s (List.mem_cons_of_mem _ hs)

/-! Claim theorems. -/

/-- C9: a surface with no kanji-class character is returned unchanged by
`generate_furigana_word`, warning-free, for every target reading
(present, absent or empty). -/
theorem C9_no_kanji_identity (tok : Char → List Reading)
    (wdict : Reading → Option (List Reading)) (word : List Char)
    (t : Option Reading) (h : contains_kanji word = false) :
    generate_furigana_word tok wdict word t = (word, false) := by
  simp [generate_furigana_word, h]

/-- Witness for C9 at a concrete kana-only surface. -/
theorem C9_no_kanji_identity_witness :
    contains_kanji "あい".data = false ∧
      generate_furigana_word tokEmpty wdictEmpty "あい".data (some "お".data)
        = ("あい".data, false) :=
  ⟨by decide, C9_no_kanji_identity tokEmpty wdictEmpty "あい".data (some "お".data) (by decide)⟩

/-- C8: the candidate set of every character is non-empty, and when the
tokenizer yields only empty reading forms and the dictionary yields no
reading for the character, it is exactly the singleton containing the
character itself. -/
theorem C8_candidates_nonempty_fallback (tok : Char → List Reading)
    (wdict : Reading → Option (List Reading)) (c : Char) :
    get_candidate_readings tok wdict c ≠ [] ∧
      ((∀ r ∈ tok c, r = []) → (wdict [c]).getD [] = [] →
        get_candidate_readings tok wdict c = [[c]]) := by
  have aux : ∀ l : List Reading, (if l.isEmpty = true then [[c]] else l) ≠ [] := by
    intro l
    split <;> simp_all [List.isEmpty_iff]
  constructor
  · unfold get_candidate_readings
    split <;> exact aux _
  · intro htok hdict
    unfold get_candidate_readings
    rw [foldl_skip_empty _ _ htok]
    rcases hw : wdict [c] with _ | rs
    · rfl
    · rw [hw] at hdict
      simp only [Option.getD_some] at hdict
      subst hdict
      rfl

/-- Witness for C8 at a concrete character with both sources empty. -/
theorem C8_candidates_nonempty_fallback_witness :
    get_candidate_readings tokEmpty wdictEmpty '火' = [['火']] :=
  (C8_candidates_nonempty_fallback tokEmpty wdictEmpty '火').2
    (by intro r hr; simp [tokEmpty] at hr) (by simp [wdictEmpty])

/-- C6: the literal step of the aligner — the next `len(seg)` reading
characters must equal the segment after katakana→hiragana normalization
of both sides; on a match exactly `len(seg)` characters are consumed and
the aligner recurses, otherwise the state fails.  There is no
partial-literal matching. -/
theorem C6_literal_exact_match (tok : Char → List Reading)
    (wdict : Reading → Option (List Reading)) (seg : List Char)
    (rest : List (SegTag × List Char)) (reading : Reading) (read_idx : Nat) :
    align_segments tok wdict ((SegTag.L, seg) :: rest) reading read_idx =
      if katakana_to_hiragana ((reading.drop read_idx).take seg.length)
          = katakana_to_hiragana seg then
        (align_segments tok wdict rest reading (read_idx + seg.length)).map (seg ++ ·)
      else none := by
  rw [align_segments]
  split
  · cases align_segments tok wdict rest reading (read_idx + seg.length) <;> rfl
  · rfl

/-- C7: segmentation invariants — the segments of a surface concatenate
back to the surface exactly, every segment is non-empty, and no two
adjacent segments carry the same tag. -/
theorem C7_segmentation_invariants (surface : List Char) :
    ((split_surface surface).map Prod.snd).flatten = surface ∧
    (∀ s ∈ split_surface surface, s.2 ≠ []) ∧
    List.Chain' (fun a b => a.1 ≠ b.1) (split_surface surface) :=
  split_surface_aux_spec surface.length surface (Nat.le_refl _)

/-- C2 counterexample: a two-kanji block and a reading with no exact
combination and no valid partition, on which `_annotate_kanji_block`
returns whole-block ruby markup rather than any failure signal. -/
theorem C2_block_failure_counterexample :
    matchingCombos tokEmpty wdictEmpty "大人".data "あいう".data = [] ∧
      valid_splits tokEmpty wdictEmpty "大人".data "あいう".data = [] ∧
      annotate_kanji_block tokEmpty wdictEmpty "大人".data "あいう".data
        = wrapRuby "大人".data "あいう".data := by
  refine ⟨by decide, by decide, ?_⟩
  decide

/-- C2 amended: with no exact combination and no valid partition, the
block matcher returns the single whole-block annotation wrapping the
entire run against the entire reading slice (never a failure signal). -/
theorem C2_whole_block_annotation (tok : Char → List Reading)
    (wdict : Reading → Option (List Reading)) (block : List Char)
    (block_reading : Reading)
    (h1 : matchingCombos tok wdict block block_reading = [])
    (h2 : valid_splits tok wdict block block_reading = []) :
    annotate_kanji_block tok wdict block block_reading
      = wrapRuby block block_reading := by
  unfold annotate_kanji_block
  rw [h1, h2]
  rfl

/-- Witness for C2 at the concrete input of the counterexample. -/
theorem C2_whole_block_annotation_witness :
    annotate_kanji_block tokEmpty wdictEmpty "大人".data "あいう".data
      = wrapRuby "大人".data "あいう".data :=
  C2_whole_block_annotation tokEmpty wdictEmpty "大人".data "あいう".data
    (by decide) (by decide)

/-- C1 counterexample: a kanji surface and a slash-free reading shorter
than the kanji run.  Alignment fails, the warning is emitted, and the
returned value is the surface unchanged — not the surface wrapped in a
single annotation against the whole reading, as the claim states. -/
theorem C1_fallback_counterexample :
    contains_kanji "大人".data = true ∧ "あ".data ≠ ([] : Reading) ∧
      '/' ∉ "あ".data ∧
      align_segments tokEmpty wdictEmpty (split_surface "大人".data) "あ".data 0 = none ∧
      generate_furigana_word tokEmpty wdictEmpty "大人".data (some "あ".data)
        = ("大人".data, true) ∧
      "大人".data ≠ wrapRuby "大人".data "あ".data := by
  refine ⟨by decide, by decide, by decide, by decide, by decide, by decide⟩

/-- C1 amended: when the surface contains a kanji-class character, the
target reading is non-empty and slash-free, and the segment/reading
alignment fails, `generate_furigana_word` emits the warning and returns
the surface unchanged (no exception, no whole-word annotation). -/
theorem C1_fallback_surface_unchanged (tok : Char → List Reading)
    (wdict : Reading → Option (List Reading)) (word : List Char) (r : Reading)
    (hk : contains_kanji word = true) (hne : r ≠ []) (hs : '/' ∉ r)
    (hfail : align_segments tok wdict (split_surface word) r 0 = none) :
    generate_furigana_word tok wdict word (some r) = (word, true) := by
  simp [generate_furigana_word, hk, hne, hs, annotate_word, hfail]

/-- Witness for C1 at the concrete failing input. -/
theorem C1_fallback_surface_unchanged_witness :
    generate_furigana_word tokEmpty wdictEmpty "大人".data (some "あ".data)
      = ("大人".data, true) :=
  C1_fallback_surface_unchanged tokEmpty wdictEmpty "大人".data "あ".data
    (by decide) (by decide) (by decide) (by decide)

/-- C3: the annotation output is a deterministic function of the
pre-loaded resources and the inputs — two engines whose tokenizer and
dictionary agree pointwise return identical markup for every word and
target reading (the embedding fixes the one in-process-deterministic
set-iteration order, see the header note). -/
theorem C3_deterministic (tok tok' : Char → List Reading)
    (wdict wdict' : Reading → Option (List Reading))
    (htok : ∀ c, tok c = tok' c) (hw : ∀ w, wdict w = wdict' w)
    (word : List Char) (t : Option Reading) :
    generate_furigana_word tok wdict word t
      = generate_furigana_word tok' wdict' word t := by
  have h1 : tok = tok' := funext htok
  have h2 : wdict = wdict' := funext hw
  rw [h1, h2]

/-- C10: for a single-character run whose character is not the iteration
mark, the whole reading slice is added to the candidate set, so the exact
path always succeeds and the result wraps the character with the whole
slice; the matching list is exactly the one whole-slice combination, so
neither fallback is ever reached. -/
theorem C10_single_kanji_exact (tok : Char → List Reading)
    (wdict : Reading → Option (List Reading)) (c : Char) (r : Reading)
    (hc : c ≠ '々') :
    matchingCombos tok wdict [c] r = [[r]] ∧
      annotate_kanji_block tok wdict [c] r = rubyChar c r := by
  have hS : (sortLex (insertNew r (get_candidate_readings tok wdict c))).Nodup :=
    sortLex_nodup _ (insertNew_nodup _ _ (get_candidate_readings_nodup tok wdict c))
  have hrS : r ∈ sortLex (insertNew r (get_candidate_readings tok wdict c)) :=
    (mem_sortLex _ _).mpr ((mem_insertNew _ _ _).mpr (Or.inl rfl))
  have hcl : candidates_list tok wdict [c] r
      = [sortLex (insertNew r (get_candidate_readings tok wdict c))] := by
    unfold candidates_list candidates_list_aux candsFor
    simp [hc, candidates_list_aux]
  have hm : matchingCombos tok wdict [c] r = [[r]] := by
    unfold matchingCombos
    rw [hcl, listProd_singleton, map_single_filter_flatten r _ hS hrS]
  refine ⟨hm, ?_⟩
  unfold annotate_kanji_block
  rw [hm]
  simp [renderCombo]

/-- C5: in the fallback path (no exact combination), the split the block
matcher renders is a valid split of minimal cost `Σ |len(part) − ideal|`
with `ideal = len(readingSlice) / len(kanjiRun)`, and no valid split of
equal cost has a lexicographically greater tuple of part lengths (so the
chosen one's tuple is the greatest, the order being total).  The bound
`len(kanjiRun) < 10^6` keeps the source's `1e-6` margin strictly below
the cost granularity `1 / len(kanjiRun)`, making the margin logic agree
with exact comparison. -/
theorem C5_fallback_selection_optimal (tok : Char → List Reading)
    (wdict : Reading → Option (List Reading)) (block : List Char) (r : Reading)
    (hq6 : block.length < 1000000)
    (hmatch : matchingCombos tok wdict block r = [])
    (best : List Reading)
    (hsel : selectBestSplit ((r.length : ℚ) / (block.length : ℚ))
      (valid_splits tok wdict block r) = some best) :
    annotate_kanji_block tok wdict block r = renderCombo block best ∧
      best ∈ valid_splits tok wdict block r ∧
      ∀ s ∈ valid_splits tok wdict block r,
        splitCost ((r.length : ℚ) / (block.length : ℚ)) best
            ≤ splitCost ((r.length : ℚ) / (block.length : ℚ)) s ∧
          (splitCost ((r.length : ℚ) / (block.length : ℚ)) best
              = splitCost ((r.length : ℚ) / (block.length : ℚ)) s →
            tupleGt (s.map List.length) (best.map List.length) = false) := by
  have hfall : annotate_kanji_block tok wdict block r = renderCombo block best := by
    simp only [annotate_kanji_block, hmatch, hsel]
  have hq : 0 < block.length := by
    by_contra h
    have hb0 : block.length = 0 := by omega
    rw [valid_splits, hb0] at hsel
    simp [generate_splits, selectBestSplit] at hsel
  refine ⟨hfall, ?_⟩
  cases hv : valid_splits tok wdict block r with
  | nil =>
    rw [hv] at hsel
    simp [selectBestSplit] at hsel
  | cons v rest =>
    rw [hv, selectBestSplit, List.foldl_cons] at hsel
    have hsv : selectStep ((r.length : ℚ) / (block.length : ℚ)) none v = some v := rfl
    rw [hsv] at hsel
    obtain ⟨c, hc, hcmem, hcall⟩ :=
      selectFold_spec r.length block.length hq hq6 rest v
    rw [hc] at hsel
    obtain rfl : c = best := by injection hsel
    exact ⟨hcmem, hcall⟩

/-- Witness for C5 at the run 人々 with reading ひとと: the two valid
splits (ひ·とと and ひと·と) tie at cost 1, and the tie-break selects
ひと·と, whose length tuple (2, 1) is lexicographically greater. -/
theorem C5_fallback_selection_optimal_witness :
    annotate_kanji_block tokEmpty wdictHito "人々".data "ひとと".data
        = renderCombo "人々".data [['ひ', 'と'], ['と']] ∧
      [['ひ', 'と'], ['と']] ∈ valid_splits tokEmpty wdictHito "人々".data "ひとと".data ∧
      ∀ s ∈ valid_splits tokEmpty wdictHito "人々".data "ひとと".data,
        splitCost (("ひとと".data.length : ℚ) / ("人々".data.length : ℚ)) [['ひ', 'と'], ['と']]
            ≤ splitCost (("ひとと".data.length : ℚ) / ("人々".data.length : ℚ)) s ∧
          (splitCost (("ひとと".data.length : ℚ) / ("人々".data.length : ℚ)) [['ひ', 'と'], ['と']]
              = splitCost (("ひとと".data.length : ℚ) / ("人々".data.length : ℚ)) s →
            tupleGt (s.map List.length) ([['ひ', 'と'], ['と']].map List.length) = false) := by
  have hip : (("ひとと".data.length : ℚ) / ("人々".data.length : ℚ)) = 3 / 2 := by norm_num
  have hv : valid_splits tokEmpty wdictHito "人々".data "ひとと".data
      = [[['ひ'], ['と', 'と']], [['ひ', 'と'], ['と']]] := by decide
  have hc1 : splitCost ((3 : ℚ) / 2) [['ひ'], ['と', 'と']] = 1 := by
    simp [splitCost]
    rw [abs_of_nonpos (show (1 : ℚ) - 3 / 2 ≤ 0 by norm_num),
      abs_of_nonneg (show (0 : ℚ) ≤ 2 - 3 / 2 by norm_num)]
    norm_num
  have hc2 : splitCost ((3 : ℚ) / 2) [['ひ', 'と'], ['と']] = 1 := by
    simp [splitCost]
    rw [abs_of_nonneg (show (0 : ℚ) ≤ 2 - 3 / 2 by norm_num),
      abs_of_nonpos (show (1 : ℚ) - 3 / 2 ≤ 0 by norm_num)]
    norm_num
  have hsel : selectBestSplit (("ひとと".data.length : ℚ) / ("人々".data.length : ℚ))
      (valid_splits tokEmpty wdictHito "人々".data "ひとと".data)
      = some [['ひ', 'と'], ['と']] := by
    rw [hip, hv, selectBestSplit, List.foldl_cons, List.foldl_cons]
    have h1 : selectStep ((3 : ℚ) / 2) none [['ひ'], ['と', 'と']]
        = some [['ひ'], ['と', 'と']] := rfl
    rw [h1]
    have h2 : selectStep ((3 : ℚ) / 2) (some [['ひ'], ['と', 'と']]) [['ひ', 'と'], ['と']]
        = some [['ひ', 'と'], ['と']] := by
      rw [selectStep, hc1, hc2]
      rw [if_neg (by norm_num), if_pos (by norm_num), if_pos (by decide)]
    rw [h2]
    rfl
  exact C5_fallback_selection_optimal tokEmpty wdictHito "人々".data "ひとと".data
    (by decide) (by decide) [['ひ', 'と'], ['と']] hsel

/-- C4 counterexample: with 火 carrying candidate readings か and が
(rendaku closure of the dictionary reading か), the run 火々 against the
reading がか has the unique matching combination (が, か); the reading
chosen for 々 is か, which is neither the chosen previous reading が nor
a voiced variant of it (が has no entry in the voicing table).  The
iteration mark's candidates are pooled from all candidates of the
previous character, not derived from the chosen one. -/
theorem C4_iteration_counterexample :
    "火々".data.getD 1 ' ' = '々' ∧
      matchingCombos tokEmpty wdictKa "火々".data "がか".data = [[['が'], ['か']]] ∧
      ¬ inheritsFromChosen [['が'], ['か']] 1 := by
  refine ⟨by decide, by decide, ?_⟩
  rintro (h | ⟨c0, rest, v, h1, h2, h3⟩)
  · exact absurd h (by decide)
  · obtain ⟨rfl, rfl⟩ : 'が' = c0 ∧ [] = rest := List.cons.inj h1
    have hnone : rendaku_map 'が' = none := by decide
    rw [hnone] at h2
    exact Option.noConfusion h2

/-- C4 amended: in the exact-match path, the reading a matching
combination assigns to an iteration mark at position `i > 0` of a run is
an iteration reading (the reading itself or its voiced-first-kana
variant) of SOME candidate of the previous character — not necessarily of
the reading chosen for the previous character in that combination. -/
theorem C4_iteration_inherits_some_candidate (tok : Char → List Reading)
    (wdict : Reading → Option (List Reading)) (block : List Char) (r : Reading)
    (combo : List Reading) (i : Nat)
    (hcombo : combo ∈ matchingCombos tok wdict block r)
    (hi : 0 < i) (hlen : i < block.length) (hch : block.getD i ' ' = '々') :
    ∃ pc ∈ (candidates_list tok wdict block r).getD (i - 1) [],
      combo.getD i [] ∈ iteration_readings pc := by
  unfold matchingCombos at hcombo
  have hmem := (List.mem_filter.mp hcombo).1
  have hf := mem_listProd.mp hmem
  have hlen2 : (candidates_list tok wdict block r).length = block.length := by
    unfold candidates_list
    exact candidates_list_aux_length tok wdict block.length r block none
  have hidx : combo.getD i [] ∈ (candidates_list tok wdict block r).getD i [] :=
    forall₂_getD [] [] hf i (by rw [hlen2]; exact hlen)
  rw [candidates_list,
    candidates_list_aux_iter tok wdict block.length r block none i hi hlen hch] at hidx
  exact (mem_iterationFold _ _).mp hidx

/-- Witness for C4 at the counterexample's concrete input: か (chosen for
々) is an iteration reading of the previous character's candidate か. -/
theorem C4_iteration_inherits_some_candidate_witness :
    ∃ pc ∈ (candidates_list tokEmpty wdictKa "火々".data "がか".data).getD 0 [],
      ([['が'], ['か']] : List Reading).getD 1 [] ∈ iteration_readings pc :=
  C4_iteration_inherits_some_candidate tokEmpty wdictKa "火々".data "がか".data
    [['が'], ['か']] 1 (by decide) (by decide) (by decide) (by decide)

/-- Witness for C10 at a concrete kanji and reading. -/
theorem C10_single_kanji_exact_witness :
    matchingCombos tokEmpty wdictKa ['火'] "ほ".data = [["ほ".data]] ∧
      annotate_kanji_block tokEmpty wdictKa ['火'] "ほ".data = rubyChar '火' "ほ".data :=
  C10_single_kanji_exact tokEmpty wdictKa '火' "ほ".data (by decide)

/-- Witness for C3 at a concrete word and reading. -/
theorem C3_deterministic_witness :
    generate_furigana_word tokEmpty wdictKa "火".data (some "か".data)
      = generate_furigana_word tokEmpty wdictKa "火".data (some "か".data) :=
  C3_deterministic tokEmpty tokEmpty wdictKa wdictKa (fun _ => rfl) (fun _ => rfl)
    "火".data (some "か".data)

end CoreDeck
